import Mathlib

/-!
Verification of the CV-translator core (`CVtranslatorFINAL.py`): a shallow
embedding of the section parser `parse_cv_content` and of the text-emission
behaviour of the PDF renderer `create_cv_pdf`, together with theorems about
the specified properties.

Strings are modelled as `List Char` (`Str`); Python's ordered `dict` is
modelled as an insertion-ordered association list with unique keys, where
assignment to an existing key updates the value in place and assignment to
a fresh key appends at the end.
-/

set_option maxHeartbeats 1000000
set_option maxRecDepth 100000

abbrev Str := List Char

/-- The characters Python's default `str.strip()` (and `\s` in `re` for the
ASCII range) treats as whitespace. -/
def isPySpace (c : Char) : Bool :=
  c = ' ' || c = '\t' || c = '\n' || c = '\r' || c = '\x0b' || c = '\x0c'

/-- Python `s.strip(chars)`: remove leading and trailing characters
satisfying `p`. -/
def pyStrip (p : Char → Bool) (s : Str) : Str :=
  (s.dropWhile p).rdropWhile p

/-- Python `s.strip()` (default whitespace). -/
def strip (s : Str) : Str := pyStrip isPySpace s

/-- Python `s.strip(cs)` for an explicit character set `cs`. -/
def stripChars (cs : Str) (s : Str) : Str :=
  pyStrip (fun c => cs.contains c) s

/-- Python `s.lower()` (ASCII case fold; all inputs in the theorems are
ASCII). -/
def toLowerS (s : Str) : Str := s.map Char.toLower

/-- Python `s.upper()` (ASCII). -/
def toUpperS (s : Str) : Str := s.map Char.toUpper

/-- Python `s.split("\n")`: `""` yields `[""]`, separators are single
newline characters. -/
def splitNL : Str → List Str
  | [] => [[]]
  | c :: rest =>
    match splitNL rest with
    | [] => [[]]
    | h :: t => if c = '\n' then [] :: h :: t else (c :: h) :: t

/-- Python `"\n".join(ls)`. -/
def joinNL : List Str → Str
  | [] => []
  | [l] => l
  | l :: ls => l ++ '\n' :: joinNL ls

/-- Python `"sep".join(ls)` for an arbitrary separator. -/
def joinSep (sep : Str) : List Str → Str
  | [] => []
  | [l] => l
  | l :: ls => l ++ sep ++ joinSep sep ls

/-- Test `strPrefixOf n h`: `h` starts with `n` (Python `h.startswith(n)`). -/
def strPrefixOf : Str → Str → Bool
  | [], _ => true
  | _ :: _, [] => false
  | c :: cs, d :: ds => (c = d) && strPrefixOf cs ds

/-- Test `strSuffixOf n h`: `h` ends with `n` (Python `h.endswith(n)`). -/
def strSuffixOf (n h : Str) : Bool := strPrefixOf n.reverse h.reverse

/-- Test `isSubstr n h`: Python `n in h` (substring containment). -/
def isSubstr (n : Str) : Str → Bool
  | [] => strPrefixOf n []
  | c :: cs => strPrefixOf n (c :: cs) || isSubstr n cs

/-! ## Heading detectors (the three `section_patterns` and the `**` check) -/

def isUpperAZ (c : Char) : Bool := 'A' ≤ c && c ≤ 'Z'

/-- Semantics of `re.compile(r'^\s*\*{2}([^*]+)\*{2}\s*$').match(line)` on an
already-stripped line, returning `group(1)`: the line is `**`, a nonempty
asterisk-free middle, `**`. -/
def matchP1 (s : Str) : Option Str :=
  if strPrefixOf ['*', '*'] s then
    let rest := s.drop 2
    let mid := rest.take (rest.length - 2)
    let tl := rest.drop (rest.length - 2)
    if tl = ['*', '*'] && !mid.isEmpty && mid.all (· ≠ '*') then some mid else none
  else none

/-- Semantics of `re.compile(r'^\s*[A-Z\s]{5,}\s*$').match(line)` on an
already-stripped line: at least five characters, all uppercase letters or
whitespace.  This pattern has no capture group, so the code's
`match.group(1)` raises and the `except` branch is used instead. -/
def matchesP2 (s : Str) : Bool :=
  decide (5 ≤ s.length) && s.all (fun c => isUpperAZ c || isPySpace c)

/-- Semantics of `re.compile(r'^\s*-{3,}\s*([^-]+)\s*-{3,}\s*$').match(line)`
on an already-stripped line, returning the captured middle up to surrounding
whitespace (the code strips it afterwards): a leading run of at least three
dashes, a nonempty dash-free middle, a trailing run of at least three
dashes. -/
def matchP3 (s : Str) : Option Str :=
  let a := (s.takeWhile (· = '-')).length
  let b := (s.reverse.takeWhile (· = '-')).length
  if decide (3 ≤ a) && decide (3 ≤ b) && decide (a + b < s.length) then
    let mid := (s.drop a).take (s.length - a - b)
    if !mid.isEmpty && mid.all (· ≠ '-') then some mid else none
  else none

/-- Classification of one stripped, nonempty line (`parse_cv_content`,
lines 103–131): the three patterns are tested in order with first match
wins; afterwards any line that starts and ends with `**` overrides the
derived name with the line stripped of asterisks; the line is a heading iff
`is_section_header` holds and the derived name is non-empty (Python
truthiness of `section_name`). -/
def classifyLine (s : Str) : Option Str :=
  let pat : Option Str :=
    match matchP1 s with
    | some g => some (toLowerS (strip g))
    | none =>
      if matchesP2 s then some (toLowerS (strip (stripChars ['*', ' ', '-'] s)))
      else
        match matchP3 s with
        | some g => some (toLowerS (strip g))
        | none => none
  let res : Option Str :=
    if strPrefixOf ['*', '*'] s && strSuffixOf ['*', '*'] s then
      some (toLowerS (strip (stripChars ['*'] s)))
    else pat
  match res with
  | some name => if name.isEmpty then none else some name
  | none => none

/-! ## The line scan (`parse_cv_content`, lines 83–131) -/

def headerKey : Str := "header".data

structure ScanState where
  cur : Str
  secs : List (Str × List Str)

/-- Python `sections[k].append(l)`. -/
def dictAppendLine (secs : List (Str × List Str)) (k : Str) (l : Str) :
    List (Str × List Str) :=
  secs.map (fun p => if p.1 = k then (p.1, p.2 ++ [l]) else p)

/-- One iteration of the `for line in lines` loop. -/
def scanStep (st : ScanState) (rawLine : Str) : ScanState :=
  let line := strip rawLine
  if line.isEmpty then st
  else
    match classifyLine line with
    | some name =>
      { cur := name
        secs :=
          if st.secs.any (fun p => p.1 = name) then st.secs
          else st.secs ++ [(name, [])] }
    | none => { st with secs := dictAppendLine st.secs st.cur line }

/-- The full line scan: start with active section `header` (already present
in the mapping) and fold over the lines. -/
def scanLines (lines : List Str) : List (Str × List Str) :=
  (lines.foldl scanStep ⟨headerKey, [(headerKey, [])]⟩).secs

/-- Python `sections[section] = "\n".join(sections[section])` for every section. -/
def joinSections (secs : List (Str × List Str)) : List (Str × Str) :=
  secs.map (fun p => (p.1, joinNL p.2))

/-! ## Ordered-dict primitives for `List (Str × Str)` -/

def memKey (secs : List (Str × Str)) (k : Str) : Bool :=
  secs.any (fun p => p.1 = k)

/-- First value stored under `k`. -/
def lookupD (secs : List (Str × Str)) (k : Str) : Option Str :=
  match secs.find? (fun p => p.1 = k) with
  | some p => some p.2
  | none => none

/-- Python `d[k] = v`: update in place when `k` is present, append
otherwise. -/
def dictSet (secs : List (Str × Str)) (k : Str) (v : Str) : List (Str × Str) :=
  if memKey secs k then secs.map (fun p => if p.1 = k then (k, v) else p)
  else secs ++ [(k, v)]

/-- Python `d.pop(k)` (ignoring the returned value). -/
def dictRemove (secs : List (Str × Str)) (k : Str) : List (Str × Str) :=
  secs.filter (fun p => p.1 ≠ k)

/-! ## Header backfill, empty-section drop, canonicalization
(`parse_cv_content`, lines 137–168) -/

/-- The first section (in insertion order) with a non-whitespace body. -/
def firstNonemptySec (secs : List (Str × Str)) : Option (Str × Str) :=
  secs.find? (fun p => !(strip p.2).isEmpty)

/-- Lines 139–147: if the header body is whitespace-only, move the first
five lines of the first non-empty section into `header`. -/
def backfill (secs : List (Str × Str)) : List (Str × Str) :=
  match lookupD secs headerKey with
  | some hv =>
    if (strip hv).isEmpty then
      match firstNonemptySec secs with
      | some (k, v) =>
        let ls := splitNL v
        dictSet (dictSet secs headerKey (joinNL (ls.take 5))) k (joinNL (ls.drop 5))
      | none => secs
    else secs
  | none => secs

/-- Line 150: drop sections whose body is whitespace-only. -/
def dropEmpty (secs : List (Str × Str)) : List (Str × Str) :=
  secs.filter (fun p => !(strip p.2).isEmpty)

/-- The fixed vocabulary `common_sections`. -/
def vocab : List Str :=
  ["header".data, "profile".data, "experience".data,
   "education".data, "skills".data, "languages".data]

/-- Line 159: Python `section in existing_section.lower() or existing_section in
section`. -/
def canonCond (v k : Str) : Bool := isSubstr v (toLowerS k) || isSubstr k v

/-- Lines 154–168 for a single vocabulary key `v`: find the first existing
key matching `canonCond`; rename it to `v` (pop, then assign) unless it is
already `v`; if no key matches and `v` is absent, append an empty entry. -/
def canonStep (secs : List (Str × Str)) (v : Str) : List (Str × Str) :=
  match secs.find? (fun p => canonCond v p.1) with
  | some p =>
    if p.1 = v then secs
    else dictSet (dictRemove secs p.1) v p.2
  | none => if memKey secs v then secs else secs ++ [(v, [])]

def canonicalize (secs : List (Str × Str)) : List (Str × Str) :=
  vocab.foldl canonStep secs

/-- The parsed mapping right after the scan and join, before the header
backfill (an intermediate stage of `parse_cv_content`). -/
def stage1 (content : Str) : List (Str × Str) :=
  joinSections (scanLines (splitNL content))

/-- The parser `parse_cv_content` (lines 81–170): scan, join, header backfill, drop of
empty sections, canonicalization. -/
def parse_cv_content (content : Str) : List (Str × Str) :=
  canonicalize (dropEmpty (backfill (stage1 content)))

def keysOf (secs : List (Str × Str)) : List Str := secs.map (fun p => p.1)

def nonEmptyKeysOf (secs : List (Str × Str)) : List Str :=
  (secs.filter (fun p => !(strip p.2).isEmpty)).map (fun p => p.1)

/-! ## The renderer `create_cv_pdf` (lines 172–330)

The page-geometry side (cursor positions, page breaks, fonts, colors) is
excluded; what is modelled is the sequence of text runs the function hands
to the PDF library, which is the part the claims are about. -/

/-- One text run emitted by `create_cv_pdf`. -/
inductive ROp where
  /-- The centered name line (line 235). -/
  | nameLine : Str → ROp
  /-- The joined contact line (line 244). -/
  | contactLine : Str → ROp
  /-- A section banner, `" " + section_display_name` (line 262). -/
  | banner : Str → ROp
  /-- A bold sub-heading, the first line of a paragraph block (line 284). -/
  | subheading : Str → ROp
  /-- A bullet glyph plus the indented bullet text (lines 313, 317). -/
  | bulletLine : Char → Str → ROp
  /-- A plain wrapped body line (line 320). -/
  | plainLine : Str → ROp
deriving DecidableEq, Repr

/-- Lines 296–299: truncate a body line exceeding 120 characters to its
first 120 characters plus `"..."`. -/
def truncateLine (l : Str) : Str :=
  if 120 < l.length then l.take 120 ++ "...".data else l

/-- Lines 291–320: render one remaining body line (strip, skip when blank,
truncate, then bullet or plain). -/
def renderBodyLine (l0 : Str) : List ROp :=
  let l := strip l0
  if l.isEmpty then []
  else
    let l := truncateLine l
    if l.head? = some '-' || l.head? = some '•' then
      match l with
      | b :: restChars => [ROp.bulletLine b (strip restChars)]
      | [] => []
    else [ROp.plainLine l]

def renderBodyLines (ls : List Str) : List ROp :=
  ls.foldr (fun l acc => renderBodyLine l ++ acc) []

/-- Lines 273–320: render one paragraph block (`item`).  When the stripped
first line does not start with a bullet marker it is emitted as a bold
sub-heading (without truncation) and removed; the remaining lines go
through the body-line loop. -/
def renderItem (item : Str) : List ROp :=
  let lines := splitNL item
  let fl := strip (lines.headD [])
  if !(fl.head? = some '-') && !(fl.head? = some '•') then
    ROp.subheading fl :: renderBodyLines lines.tail
  else renderBodyLines lines

/-! Python `re.split(r'\n\s*\n', section_content)`: leftmost matches of a
newline, greedy whitespace, then a final newline. -/

/-- Index of the last occurrence of `c` in `l`, if any. -/
def lastIdxOf (c : Char) : Str → Option Nat
  | [] => none
  | x :: xs =>
    match lastIdxOf c xs with
    | some i => some (i + 1)
    | none => if x = c then some 0 else none

/-- Find the leftmost match of `\n\s*\n` in the second argument; returns
the text before the match (the accumulator holds the already-scanned text
reversed) and the text after the match. -/
def findSep (acc : Str) : Str → Option (Str × Str)
  | [] => none
  | x :: xs =>
    if x = '\n' then
      let run := xs.takeWhile isPySpace
      match lastIdxOf '\n' run with
      | some t => some (acc.reverse, xs.drop (t + 1))
      | none => findSep (x :: acc) xs
    else findSep (x :: acc) xs

def pySplitBlankGo : Nat → Str → List Str
  | 0, s => [s]
  | fuel + 1, s =>
    match findSep [] s with
    | none => [s]
    | some (pre, rest) => pre :: pySplitBlankGo fuel rest

/-- Line 267: `re.split(r'\n\s*\n', section_content)`. -/
def pySplitBlank (s : Str) : List Str := pySplitBlankGo s.length s

/-- Lines 258–322 for one non-header section: banner, then each non-blank
paragraph block. -/
def renderSection (k v : Str) : List ROp :=
  ROp.banner (' ' :: toUpperS k) ::
    (pySplitBlank v).foldr
      (fun item acc => (if (strip item).isEmpty then [] else renderItem item) ++ acc) []

/-- The sequence of text runs emitted by `create_cv_pdf content`: the
parsed header's first line as the name (stripped of asterisks), the
remaining header lines joined with `" | "` as the contact line, then every
non-header section with a non-whitespace body in mapping order. -/
def create_cv_pdf (content : Str) : List ROp :=
  let sections := parse_cv_content content
  let headerBody := (lookupD sections headerKey).getD []
  let nameContact : Str × List Str :=
    if headerBody.isEmpty then ([], [])
    else
      let hl := splitNL headerBody
      (strip (stripChars ['*'] (hl.headD [])), (hl.tail.map strip).filter (fun l => !l.isEmpty))
  ROp.nameLine nameContact.1 ::
    ROp.contactLine (joinSep " | ".data (nameContact.2.filter (fun l => !l.isEmpty))) ::
    sections.foldr
      (fun p acc =>
        (if p.1 = headerKey || (strip p.2).isEmpty then [] else renderSection p.1 p.2) ++ acc) []

def isSubheading : ROp → Bool
  | ROp.subheading _ => true
  | _ => false

/-- Size of the text carried by an op, for the truncation claims: `none`
for ops the body-line truncation does not apply to. -/
def bodyTextLen : ROp → Option Nat
  | ROp.bulletLine _ t => some t.length
  | ROp.plainLine t => some t.length
  | _ => none

/-- Latin-1 encodability of every character an op sends to the PDF buffer
(the repository's final step is `pdf.output(dest="S").encode('latin-1')`,
line 328). -/
def opLatin1 : ROp → Bool
  | ROp.nameLine t => t.all (fun c => c.val < 256)
  | ROp.contactLine t => t.all (fun c => c.val < 256)
  | ROp.banner t => t.all (fun c => c.val < 256)
  | ROp.subheading t => t.all (fun c => c.val < 256)
  | ROp.bulletLine b t => decide (b.val < 256) && t.all (fun c => c.val < 256)
  | ROp.plainLine t => t.all (fun c => c.val < 256)

/-! ## Lemmas about `pyStrip` -/

theorem dropWhile_head_false {p : Char → Bool} :
    ∀ {s : Str} {c : Char} {t : Str}, s.dropWhile p = c :: t → p c = false := by
  intro s
  induction s with
  | nil => intro c t h; simp at h
  | cons x xs ih =>
    intro c t h
    rw [List.dropWhile_cons] at h
    by_cases hx : p x = true
    · rw [if_pos hx] at h
      exact ih h
    · rw [if_neg hx] at h
      cases h
      simpa using hx

theorem dropWhile_eq_self_of {p : Char → Bool} {s : Str}
    (h : ∀ c ∈ s.head?, p c = false) : s.dropWhile p = s := by
  cases s with
  | nil => rfl
  | cons c t =>
    have := h c rfl
    rw [List.dropWhile_cons, this]
    simp

theorem pyStrip_head_false {p : Char → Bool} {s : Str} {c : Char} {t : Str}
    (h : pyStrip p s = c :: t) : p c = false := by
  have hpre := List.rdropWhile_prefix p (s.dropWhile p)
  rw [pyStrip] at h
  rw [h] at hpre
  obtain ⟨t', ht'⟩ := hpre
  exact dropWhile_head_false ht'.symm

theorem pyStrip_last_false {p : Char → Bool} {s : Str}
    (h : pyStrip p s ≠ []) : p ((pyStrip p s).getLast h) = false := by
  have := List.rdropWhile_last_not p (s.dropWhile p) (by rw [← pyStrip]; exact h)
  simpa [pyStrip] using this

theorem pyStrip_idem (p : Char → Bool) (s : Str) :
    pyStrip p (pyStrip p s) = pyStrip p s := by
  have h1 : (pyStrip p s).dropWhile p = pyStrip p s := by
    apply dropWhile_eq_self_of
    intro c hc
    rcases hr : pyStrip p s with _ | ⟨d, t⟩
    · rw [hr] at hc; simp at hc
    · rw [hr] at hc
      cases hc
      exact pyStrip_head_false hr
  have h2 : (pyStrip p s).rdropWhile p = pyStrip p s := by
    rw [List.rdropWhile_eq_self_iff]
    intro hl hp
    have := pyStrip_last_false (p := p) (s := s) hl
    rw [this] at hp
    exact Bool.false_ne_true hp
  rw [pyStrip, h1, h2]

theorem pyStrip_eq_nil_iff {p : Char → Bool} {s : Str} :
    pyStrip p s = [] ↔ ∀ c ∈ s, p c = true := by
  constructor
  · intro h c hc
    rw [pyStrip, List.rdropWhile_eq_nil_iff] at h
    rcases List.mem_append.mp
        (by rw [List.takeWhile_append_dropWhile]; exact hc :
          c ∈ s.takeWhile p ++ s.dropWhile p) with hc' | hc'
    · exact List.mem_takeWhile_imp hc'
    · exact h c hc'
  · intro h
    rw [pyStrip, List.dropWhile_eq_nil_iff.mpr (fun x hx => h x hx)]
    simp [List.rdropWhile]

theorem mem_pyStrip {p : Char → Bool} {s : Str} {c : Char}
    (h : c ∈ pyStrip p s) : c ∈ s := by
  have h1 := (List.rdropWhile_prefix p (s.dropWhile p)).sublist
  have h2 := (List.dropWhile_suffix p (l := s)).sublist
  exact (h1.trans h2).mem h

theorem pyStrip_eq_self {p : Char → Bool} {s : Str}
    (h1 : ∀ c ∈ s.head?, p c = false) (h2 : ∀ c ∈ s.getLast?, p c = false) :
    pyStrip p s = s := by
  have hd : s.dropWhile p = s := dropWhile_eq_self_of h1
  have hr : s.rdropWhile p = s := by
    rw [List.rdropWhile_eq_self_iff]
    intro hl hp
    have : s.getLast? = some (s.getLast hl) := List.getLast?_eq_getLast s hl
    have := h2 _ (by rw [this]; rfl)
    rw [this] at hp
    exact Bool.false_ne_true hp
  rw [pyStrip, hd, hr]

/-! ## Lemmas about `splitNL` and `joinNL` -/

theorem splitNL_ne_nil (s : Str) : splitNL s ≠ [] := by
  cases s with
  | nil => simp [splitNL]
  | cons c rest =>
    rw [splitNL]
    rcases h : splitNL rest with _ | ⟨h', t'⟩
    · simp
    · by_cases hc : c = '\n' <;> simp [hc]

theorem splitNL_cons (c : Char) (rest : Str) :
    splitNL (c :: rest) =
      if c = '\n' then [] :: splitNL rest
      else (c :: (splitNL rest).headD []) :: (splitNL rest).tail := by
  rcases h : splitNL rest with _ | ⟨h', t'⟩
  · exact absurd h (splitNL_ne_nil rest)
  · simp only [splitNL, h]
    by_cases hc : c = '\n' <;> simp [hc]

theorem mem_splitNL_no_nl : ∀ {s : Str} {l : Str}, l ∈ splitNL s → '\n' ∉ l := by
  intro s
  induction s with
  | nil =>
    intro l hl
    simp [splitNL] at hl
    simp [hl]
  | cons c rest ih =>
    intro l hl
    rw [splitNL_cons] at hl
    by_cases hc : c = '\n'
    · rw [if_pos hc] at hl
      rcases List.mem_cons.mp hl with h | h
      · simp [h]
      · exact ih h
    · rw [if_neg hc] at hl
      rcases List.mem_cons.mp hl with h | h
      · subst h
        intro hmem
        rcases List.mem_cons.mp hmem with h1 | h1
        · exact hc h1.symm
        · rcases h2 : splitNL rest with _ | ⟨h', t'⟩
          · exact absurd h2 (splitNL_ne_nil rest)
          · exact ih (h2 ▸ List.mem_cons_self h' t') (by rwa [h2] at h1)
      · rcases h2 : splitNL rest with _ | ⟨h', t'⟩
        · exact absurd h2 (splitNL_ne_nil rest)
        · rw [h2] at h
          exact ih (h2 ▸ List.mem_cons_of_mem h' h)

theorem splitNL_no_nl {l : Str} (h : '\n' ∉ l) : splitNL l = [l] := by
  induction l with
  | nil => rfl
  | cons c rest ih =>
    rw [splitNL_cons, ih (fun hm => h (List.mem_cons_of_mem c hm))]
    have hc : c ≠ '\n' := fun hc => h (hc ▸ List.mem_cons_self c rest)
    simp [hc]

theorem splitNL_append_nl {l s : Str} (h : '\n' ∉ l) :
    splitNL (l ++ '\n' :: s) = l :: splitNL s := by
  induction l with
  | nil =>
    rw [List.nil_append, splitNL_cons, if_pos rfl]
  | cons c rest ih =>
    have hc : c ≠ '\n' := fun hc => h (hc ▸ List.mem_cons_self c rest)
    have ih' := ih (fun hm => h (List.mem_cons_of_mem c hm))
    rw [List.cons_append, splitNL_cons, ih']
    simp [hc]

theorem joinNL_cons {l : Str} {ls : List Str} (h : ls ≠ []) :
    joinNL (l :: ls) = l ++ '\n' :: joinNL ls := by
  cases ls with
  | nil => exact absurd rfl h
  | cons l' ls' => rfl

theorem splitNL_joinNL : ∀ {ls : List Str}, ls ≠ [] → (∀ l ∈ ls, '\n' ∉ l) →
    splitNL (joinNL ls) = ls := by
  intro ls
  induction ls with
  | nil => intro h; exact absurd rfl h
  | cons l rest ih =>
    intro _ hnl
    cases rest with
    | nil => exact splitNL_no_nl (hnl l (List.mem_cons_self l []))
    | cons l' rest' =>
      rw [joinNL_cons (by simp), splitNL_append_nl (hnl l (List.mem_cons_self l _)),
        ih (by simp) (fun x hx => hnl x (List.mem_cons_of_mem l hx))]

theorem mem_joinNL {c : Char} : ∀ {ls : List Str} {l : Str}, l ∈ ls → c ∈ l →
    c ∈ joinNL ls := by
  intro ls
  induction ls with
  | nil => intro l h; simp at h
  | cons l0 rest ih =>
    intro l hl hc
    cases rest with
    | nil =>
      rcases List.mem_cons.mp hl with h | h
      · subst h; exact hc
      · simp at h
    | cons l' rest' =>
      rw [joinNL_cons (by simp)]
      rcases List.mem_cons.mp hl with h | h
      · subst h; exact List.mem_append_left _ hc
      · exact List.mem_append_right _ (List.mem_cons_of_mem _ (ih h hc))

/-! ## Lemmas about the ordered-dict primitives -/

theorem find?_setmap {k v : Str} :
    ∀ secs : List (Str × Str),
      (secs.map (fun p => if p.1 = k then (k, v) else p)).find? (fun p => p.1 = k) =
        if memKey secs k then some (k, v) else none := by
  intro secs
  induction secs with
  | nil => rfl
  | cons p rest ih =>
    by_cases hp : p.1 = k
    · rw [List.map_cons, if_pos hp, List.find?_cons_of_pos _ (by simp)]
      rw [show memKey (p :: rest) k = true by simp [memKey, hp]]
      rfl
    · rw [List.map_cons, if_neg hp, List.find?_cons_of_neg _ (by simp [hp]), ih,
        show memKey (p :: rest) k = memKey rest k by simp [memKey, hp]]

theorem find?_append_single {k : Str} {v : Str} {secs : List (Str × Str)}
    (h : memKey secs k = false) :
    (secs ++ [(k, v)]).find? (fun p => p.1 = k) = some (k, v) := by
  induction secs with
  | nil => simp [List.find?]
  | cons p rest ih =>
    simp only [memKey, List.any_cons, Bool.or_eq_false_iff] at h
    rw [List.cons_append, List.find?_cons_of_neg _ (by simp [of_decide_eq_false h.1])]
    exact ih (by simpa [memKey] using h.2)

theorem lookupD_dictSet_self (secs : List (Str × Str)) (k v : Str) :
    lookupD (dictSet secs k v) k = some v := by
  rw [dictSet]
  by_cases h : memKey secs k = true
  · rw [if_pos h, lookupD, find?_setmap, if_pos h]
  · rw [if_neg h, lookupD, find?_append_single (by simpa using h)]

theorem find?_setmap_other {k k' v : Str} (hne : k' ≠ k) :
    ∀ secs : List (Str × Str),
      (secs.map (fun p => if p.1 = k then (k, v) else p)).find? (fun p => p.1 = k') =
        secs.find? (fun p => p.1 = k') := by
  intro secs
  induction secs with
  | nil => rfl
  | cons p rest ih =>
    by_cases hp : p.1 = k
    · have h1 : ¬((k : Str) = k') := fun h => hne h.symm
      have h2 : ¬(p.1 = k') := by rw [hp]; exact h1
      rw [List.map_cons, if_pos hp, List.find?_cons_of_neg _ (by simp [h1]),
        List.find?_cons_of_neg _ (by simp [h2]), ih]
    · rw [List.map_cons, if_neg hp]
      by_cases hp' : p.1 = k'
      · rw [List.find?_cons_of_pos _ (by simp [hp']), List.find?_cons_of_pos _ (by simp [hp'])]
      · rw [List.find?_cons_of_neg _ (by simp [hp']), List.find?_cons_of_neg _ (by simp [hp']), ih]

theorem find?_append_single_other {k k' v : Str} (hne : k' ≠ k) :
    ∀ secs : List (Str × Str),
      (secs ++ [(k, v)]).find? (fun p => p.1 = k') = secs.find? (fun p => p.1 = k') := by
  intro secs
  induction secs with
  | nil =>
    rw [List.nil_append,
      List.find?_cons_of_neg _ (by simp only [decide_eq_true_eq]; exact fun h => hne h.symm)]
  | cons p rest ih =>
    rw [List.cons_append]
    by_cases hp : p.1 = k'
    · rw [List.find?_cons_of_pos _ (by simp [hp]), List.find?_cons_of_pos _ (by simp [hp])]
    · rw [List.find?_cons_of_neg _ (by simp [hp]), List.find?_cons_of_neg _ (by simp [hp]), ih]

theorem lookupD_dictSet_other {k k' : Str} (hne : k' ≠ k) (secs : List (Str × Str)) (v : Str) :
    lookupD (dictSet secs k v) k' = lookupD secs k' := by
  rw [dictSet]
  by_cases h : memKey secs k = true
  · rw [if_pos h, lookupD, find?_setmap_other hne, lookupD]
  · rw [if_neg h, lookupD, find?_append_single_other hne, lookupD]

theorem memKey_dictSet_self (secs : List (Str × Str)) (k v : Str) :
    memKey (dictSet secs k v) k = true := by
  rw [dictSet]
  by_cases h : memKey secs k = true
  · rw [if_pos h]
    rw [memKey] at h ⊢
    rcases List.any_eq_true.mp h with ⟨p, hp, hpk⟩
    exact List.any_eq_true.mpr
      ⟨(k, v), List.mem_map.mpr ⟨p, hp, by simp [of_decide_eq_true hpk]⟩, by simp⟩
  · rw [if_neg h, memKey, List.any_append]
    simp

theorem memKey_dictSet_mono {secs : List (Str × Str)} {k' : Str}
    (h : memKey secs k' = true) (k v : Str) : memKey (dictSet secs k v) k' = true := by
  by_cases hk : k' = k
  · subst hk; exact memKey_dictSet_self secs k' v
  · rw [dictSet]
    by_cases hm : memKey secs k = true
    · rw [if_pos hm, memKey]
      rw [memKey] at h
      rcases List.any_eq_true.mp h with ⟨p, hp, hpk⟩
      have hpk' := of_decide_eq_true hpk
      refine List.any_eq_true.mpr ⟨p, List.mem_map.mpr ⟨p, hp, ?_⟩, hpk⟩
      rw [if_neg (by rw [hpk']; exact hk)]
    · rw [if_neg hm, memKey, List.any_append]
      rw [memKey] at h
      simp [h]

theorem memKey_dictRemove_ne {secs : List (Str × Str)} {k k' : Str} (hne : k' ≠ k) :
    memKey (dictRemove secs k) k' = memKey secs k' := by
  simp only [dictRemove, memKey]
  induction secs with
  | nil => rfl
  | cons p rest ih =>
    rw [List.filter_cons]
    by_cases hp : p.1 = k
    · have hp' : ¬(p.1 = k') := fun h => hne (by rw [← h, hp])
      rw [if_neg (by simp [hp]), ih, List.any_cons]
      simp [hp']
    · rw [if_pos (by simp [hp]), List.any_cons, List.any_cons, ih]

theorem mem_dictSet {secs : List (Str × Str)} {k v : Str} {p : Str × Str}
    (h : p ∈ dictSet secs k v) : p ∈ secs ∨ p = (k, v) := by
  rw [dictSet] at h
  by_cases hm : memKey secs k = true
  · rw [if_pos hm] at h
    rcases List.mem_map.mp h with ⟨q, hq, hqe⟩
    by_cases hqk : q.1 = k
    · rw [if_pos hqk] at hqe
      exact Or.inr hqe.symm
    · rw [if_neg hqk] at hqe
      exact Or.inl (hqe ▸ hq)
  · rw [if_neg hm] at h
    rcases List.mem_append.mp h with h | h
    · exact Or.inl h
    · simp at h
      exact Or.inr (by simp [h])

theorem mem_dictRemove {secs : List (Str × Str)} {k : Str} {p : Str × Str}
    (h : p ∈ dictRemove secs k) : p ∈ secs :=
  List.mem_of_mem_filter h

/-! ## The body-line invariant

Every line stored in a section body by `parse_cv_content` was appended by
the scan loop, hence is nonempty, already stripped, not classified as a
heading, and free of newline characters. -/

def GoodLine (l : Str) : Prop :=
  l ≠ [] ∧ strip l = l ∧ classifyLine l = none ∧ '\n' ∉ l

/-- A section-body string is either empty or the newline-join of a nonempty
list of good lines. -/
def BodyOk (v : Str) : Prop :=
  v = [] ∨ ∃ ls : List Str, ls ≠ [] ∧ (∀ l ∈ ls, GoodLine l) ∧ v = joinNL ls

def SecsOk (secs : List (Str × Str)) : Prop := ∀ p ∈ secs, BodyOk p.2

/-- Invariant carried through the scan loop: keys are unique and all stored
lines are good. -/
def ScanInv (st : ScanState) : Prop :=
  (st.secs.map (fun p => p.1)).Nodup ∧ ∀ p ∈ st.secs, ∀ l ∈ p.2, GoodLine l

theorem keys_dictAppendLine (secs : List (Str × List Str)) (k : Str) (l : Str) :
    (dictAppendLine secs k l).map (fun p => p.1) = secs.map (fun p => p.1) := by
  rw [dictAppendLine, List.map_map]
  apply List.map_congr_left
  intro p _
  by_cases hp : p.1 = k <;> simp [hp]

theorem scanStep_inv {st : ScanState} {raw : Str} (hnl : '\n' ∉ raw)
    (h : ScanInv st) : ScanInv (scanStep st raw) := by
  rw [scanStep]
  by_cases he : (strip raw).isEmpty = true
  · rw [if_pos he]; exact h
  · rw [if_neg he]
    rcases hc : classifyLine (strip raw) with _ | name
    · dsimp only
      refine ⟨?_, ?_⟩
      · rw [keys_dictAppendLine]; exact h.1
      · intro p hp l hl
        rcases List.mem_map.mp hp with ⟨q, hq, hqe⟩
        by_cases hqk : q.1 = st.cur
        · rw [if_pos hqk] at hqe
          rw [← hqe] at hl
          rcases List.mem_append.mp hl with h1 | h1
          · exact h.2 q hq l h1
          · have hls : l = strip raw := by simpa using h1
            subst hls
            refine ⟨?_, pyStrip_idem _ _, hc, ?_⟩
            · intro hnil
              rw [hnil] at he
              simp at he
            · intro hm
              exact hnl (mem_pyStrip hm)
        · rw [if_neg hqk] at hqe
          exact h.2 q hq l (hqe ▸ hl)
    · dsimp only
      by_cases hmem : st.secs.any (fun p => p.1 = name) = true
      · rw [if_pos hmem]
        exact h
      · rw [if_neg hmem]
        refine ⟨?_, ?_⟩
        · rw [List.map_append]
          simp only [List.map_cons, List.map_nil]
          rw [List.nodup_append]
          refine ⟨h.1, List.nodup_singleton name, ?_⟩
          intro x hx hx'
          have hxn : x = name := by simpa using hx'
          subst hxn
          rcases List.mem_map.mp hx with ⟨q, hq, hqe⟩
          exact hmem (List.any_eq_true.mpr ⟨q, hq, decide_eq_true hqe⟩)
        · intro p hp l hl
          rcases List.mem_append.mp hp with h1 | h1
          · exact h.2 p h1 l hl
          · have hpn : p = (name, []) := by simpa using h1
            rw [hpn] at hl
            simp at hl

theorem foldl_scan_inv : ∀ {lines : List Str} {st : ScanState},
    (∀ raw ∈ lines, '\n' ∉ raw) → ScanInv st → ScanInv (lines.foldl scanStep st) := by
  intro lines
  induction lines with
  | nil => intro st _ h; exact h
  | cons raw rest ih =>
    intro st hnl h
    rw [List.foldl_cons]
    exact ih (fun r hr => hnl r (List.mem_cons_of_mem raw hr))
      (scanStep_inv (hnl raw (List.mem_cons_self raw rest)) h)

theorem scanLines_inv (lines : List Str) (hnl : ∀ raw ∈ lines, '\n' ∉ raw) :
    ((scanLines lines).map (fun p => p.1)).Nodup ∧
      ∀ p ∈ scanLines lines, ∀ l ∈ p.2, GoodLine l :=
  foldl_scan_inv hnl
    ⟨by simp, by intro p hp l hl; simp at hp; rw [hp] at hl; simp at hl⟩

theorem stage1_SecsOk (content : Str) : SecsOk (stage1 content) := by
  intro p hp
  rw [stage1] at hp
  rcases List.mem_map.mp hp with ⟨q, hq, hqe⟩
  have hgood := (scanLines_inv (splitNL content)
    (fun raw hraw => mem_splitNL_no_nl hraw)).2 q hq
  rcases hql : q.2 with _ | ⟨l0, ls0⟩
  · left
    rw [← hqe]
    simp [hql, joinNL]
  · right
    refine ⟨q.2, by rw [hql]; simp, fun l hl => hgood l hl, ?_⟩
    rw [← hqe]

theorem stage1_keys_nodup (content : Str) :
    ((stage1 content).map (fun p => p.1)).Nodup := by
  rw [stage1, joinSections, List.map_map]
  have h := (scanLines_inv (splitNL content)
    (fun raw hraw => mem_splitNL_no_nl hraw)).1
  convert h using 1

theorem strip_ne_nil_of_good {ls : List Str} {v : Str} (hne : ls ≠ [])
    (hg : ∀ l ∈ ls, GoodLine l) (hv : v = joinNL ls) : strip v ≠ [] := by
  rcases ls with _ | ⟨l0, rest⟩
  · exact absurd rfl hne
  · have hgl := hg l0 (List.mem_cons_self l0 rest)
    rcases hl0 : l0 with _ | ⟨c, t⟩
    · exact absurd hl0 hgl.1
    · have hcs : isPySpace c = false := by
        have := hgl.2.1
        rw [hl0] at this
        exact pyStrip_head_false this
      have hcv : c ∈ v := by
        rw [hv]
        exact mem_joinNL (List.mem_cons_self l0 rest) (by rw [hl0]; exact List.mem_cons_self c t)
      intro hnil
      have := pyStrip_eq_nil_iff.mp hnil c hcv
      rw [hcs] at this
      exact Bool.false_ne_true this

theorem backfill_SecsOk {secs : List (Str × Str)} (h : SecsOk secs) :
    SecsOk (backfill secs) := by
  rcases hl : lookupD secs headerKey with _ | hv
  · rw [backfill, hl]
    exact h
  · rw [backfill, hl]
    dsimp only
    by_cases hse : (strip hv).isEmpty = true
    · rw [if_pos hse]
      rcases hf : firstNonemptySec secs with _ | ⟨k, v⟩
      · exact h
      · dsimp only
        have hkv : (k, v) ∈ secs := List.mem_of_find?_eq_some hf
        have hbv : BodyOk v := h (k, v) hkv
        have hvne : v ≠ [] := by
          have := List.find?_some hf
          intro hnil
          rw [hnil] at this
          simp [strip, pyStrip] at this
        rcases hbv with hbv | ⟨ls, hlne, hlg, hveq⟩
        · exact absurd hbv hvne
        · have hsplit : splitNL v = ls := by
            rw [hveq]
            exact splitNL_joinNL hlne (fun l hl => (hlg l hl).2.2.2)
          intro p hp
          rcases mem_dictSet hp with hp1 | hp1
          · rcases mem_dictSet hp1 with hp2 | hp2
            · exact h p hp2
            · rw [hp2]
              right
              refine ⟨ls.take 5, ?_, fun l hl => hlg l (List.mem_of_mem_take hl), ?_⟩
              · rw [Ne, List.take_eq_nil_iff]
                simp [hlne]
              · rw [hsplit]
          · rw [hp1]
            rcases hdrop : ls.drop 5 with _ | ⟨d0, ds⟩
            · left
              rw [hsplit, hdrop]
              rfl
            · right
              refine ⟨ls.drop 5, by rw [hdrop]; simp,
                fun l hl => hlg l (List.mem_of_mem_drop hl), ?_⟩
              rw [hsplit]
    · rw [if_neg hse]
      exact h

theorem dropEmpty_SecsOk {secs : List (Str × Str)} (h : SecsOk secs) :
    SecsOk (dropEmpty secs) := fun p hp => h p (List.mem_of_mem_filter hp)

theorem canonStep_SecsOk {secs : List (Str × Str)} (h : SecsOk secs) (v : Str) :
    SecsOk (canonStep secs v) := by
  rcases hf : secs.find? (fun p => canonCond v p.1) with _ | p0
  · rw [canonStep, hf]
    dsimp only
    by_cases hm : memKey secs v = true
    · rw [if_pos hm]
      exact h
    · rw [if_neg hm]
      intro p hp
      rcases List.mem_append.mp hp with h1 | h1
      · exact h p h1
      · have hpv : p = (v, []) := by simpa using h1
        rw [hpv]
        left
        rfl
  · rw [canonStep, hf]
    dsimp only
    by_cases hpv : p0.1 = v
    · rw [if_pos hpv]
      exact h
    · rw [if_neg hpv]
      intro p hp
      rcases mem_dictSet hp with h1 | h1
      · exact h p (mem_dictRemove h1)
      · rw [h1]
        exact h p0 (List.mem_of_find?_eq_some hf)

theorem canonicalize_SecsOk {secs : List (Str × Str)} (h : SecsOk secs) :
    SecsOk (canonicalize secs) := by
  rw [canonicalize]
  have : ∀ (l : List Str) (s : List (Str × Str)), SecsOk s → SecsOk (l.foldl canonStep s) := by
    intro l
    induction l with
    | nil => intro s hs; exact hs
    | cons v rest ih =>
      intro s hs
      rw [List.foldl_cons]
      exact ih _ (canonStep_SecsOk hs v)
  exact this vocab secs h

theorem parse_SecsOk (content : Str) : SecsOk (parse_cv_content content) := by
  rw [parse_cv_content]
  exact canonicalize_SecsOk (dropEmpty_SecsOk (backfill_SecsOk (stage1_SecsOk content)))

theorem parse_BodyOk {content : Str} {k v : Str}
    (h : lookupD (parse_cv_content content) k = some v) : BodyOk v := by
  rw [lookupD] at h
  rcases hf : (parse_cv_content content).find? (fun p => p.1 = k) with _ | p
  · rw [hf] at h; exact absurd h (by simp)
  · rw [hf] at h
    have hpv : p.2 = v := by injection h
    rw [← hpv]
    exact parse_SecsOk content p (List.mem_of_find?_eq_some hf)

/-! ## Re-parsing a stored body: every line goes back to `header` -/

theorem scan_good_lines : ∀ {ls : List Str} (acc : List Str),
    (∀ l ∈ ls, GoodLine l) →
    ls.foldl scanStep ⟨headerKey, [(headerKey, acc)]⟩ =
      ⟨headerKey, [(headerKey, acc ++ ls)]⟩ := by
  intro ls
  induction ls with
  | nil => intro acc _; simp
  | cons l rest ih =>
    intro acc hg
    have hl := hg l (List.mem_cons_self l rest)
    have hstep : scanStep ⟨headerKey, [(headerKey, acc)]⟩ l =
        ⟨headerKey, [(headerKey, acc ++ [l])]⟩ := by
      rw [scanStep]
      rw [hl.2.1]
      rw [if_neg (by simpa using hl.1), hl.2.2.1]
      dsimp only
      rw [dictAppendLine]
      simp
    rw [List.foldl_cons, hstep, ih (acc ++ [l]) (fun x hx => hg x (List.mem_cons_of_mem l hx))]
    simp

theorem parse_of_good_body {v : Str} {ls : List Str} (hne : ls ≠ [])
    (hg : ∀ l ∈ ls, GoodLine l) (hv : v = joinNL ls) :
    parse_cv_content v =
      [(headerKey, v), ("profile".data, []), ("experience".data, []),
       ("education".data, []), ("skills".data, []), ("languages".data, [])] := by
  have hsplit : splitNL v = ls := by
    rw [hv]
    exact splitNL_joinNL hne (fun l hl => (hg l hl).2.2.2)
  have hscan : scanLines (splitNL v) = [(headerKey, ls)] := by
    rw [scanLines, hsplit, scan_good_lines [] hg]
    simp
  have hstage1 : stage1 v = [(headerKey, v)] := by
    rw [stage1, hscan, joinSections]
    simp [← hv]
  have hstripne : strip v ≠ [] := strip_ne_nil_of_good hne hg hv
  have hstripne' : (strip v).isEmpty = false := by
    rcases hs : strip v with _ | ⟨c, t⟩
    · exact absurd hs hstripne
    · rfl
  have hback : backfill (stage1 v) = [(headerKey, v)] := by
    rw [hstage1, backfill]
    rw [show lookupD [(headerKey, v)] headerKey = some v from rfl]
    dsimp only
    rw [hstripne']
    simp
  have hdrop : dropEmpty [(headerKey, v)] = [(headerKey, v)] := by
    rw [dropEmpty, List.filter_cons, hstripne']
    simp
  rw [parse_cv_content, hback, hdrop]
  rfl

/-! ## `re.split(r'\n\s*\n', ...)` finds no separator in a stored body -/

theorem findSep_append_nonl : ∀ {l : Str} (acc rest : Str), '\n' ∉ l →
    findSep acc (l ++ rest) = findSep (l.reverse ++ acc) rest := by
  intro l
  induction l with
  | nil => intro acc rest _; simp
  | cons c t ih =>
    intro acc rest h
    have hc : ¬(c = '\n') := fun hc => h (hc ▸ List.mem_cons_self c t)
    rw [List.cons_append, findSep, if_neg hc, ih (c :: acc) rest
      (fun hm => h (List.mem_cons_of_mem c hm))]
    congr 1
    simp

theorem findSep_no_nl {l : Str} (acc : Str) (h : '\n' ∉ l) : findSep acc l = none := by
  have := findSep_append_nonl acc [] h
  simpa using this

theorem findSep_good_join : ∀ {ls : List Str}, ls ≠ [] → (∀ l ∈ ls, GoodLine l) →
    ∀ acc, findSep acc (joinNL ls) = none := by
  intro ls
  induction ls with
  | nil => intro h; exact absurd rfl h
  | cons l rest ih =>
    intro _ hg acc
    cases rest with
    | nil => exact findSep_no_nl acc ((hg l (List.mem_cons_self l [])).2.2.2)
    | cons l' rest' =>
      rw [joinNL_cons (by simp),
        findSep_append_nonl acc _ ((hg l (List.mem_cons_self l _)).2.2.2)]
      rw [findSep, if_pos rfl]
      have hl' := hg l' (List.mem_cons_of_mem l (List.mem_cons_self l' rest'))
      obtain ⟨c, t, hl'head⟩ : ∃ c t, l' = c :: t := by
        rcases hca : l' with _ | ⟨c, t⟩
        · exact absurd hca hl'.1
        · exact ⟨c, t, rfl⟩
      have hcs : isPySpace c = false := by
        have := hl'.2.1
        rw [hl'head] at this
        exact pyStrip_head_false this
      have hjoin : ∃ w : Str, joinNL (l' :: rest') = c :: w := by
        cases rest' with
        | nil => exact ⟨t, by rw [hl'head]; rfl⟩
        | cons r rs =>
          refine ⟨t ++ '\n' :: joinNL (r :: rs), ?_⟩
          rw [joinNL_cons (by simp), hl'head]
          rfl
      rcases hjoin with ⟨w, hw⟩
      rw [hw]
      rw [show (c :: w).takeWhile isPySpace = [] by
        rw [List.takeWhile_cons, hcs]; rfl]
      simp only [lastIdxOf]
      rw [← hw]
      exact ih (by simp) (fun x hx => hg x (List.mem_cons_of_mem l hx)) _

theorem pySplitBlank_of_none {v : Str} (h : findSep [] v = none) :
    pySplitBlank v = [v] := by
  rw [pySplitBlank]
  cases hn : v.length with
  | zero => rfl
  | succ n =>
    rw [pySplitBlankGo, h]

theorem pySplitBlank_good {v : Str} {ls : List Str} (hne : ls ≠ [])
    (hg : ∀ l ∈ ls, GoodLine l) (hv : v = joinNL ls) : pySplitBlank v = [v] := by
  apply pySplitBlank_of_none
  rw [hv]
  exact findSep_good_join hne hg []

/-! ## Helper lemmas about the renderer -/

theorem foldr_append_eq_bind {α β : Type} (f : α → List β) :
    ∀ l : List α, l.foldr (fun x acc => f x ++ acc) [] = l.flatMap f := by
  intro l
  induction l with
  | nil => rfl
  | cons x rest ih => simp [List.foldr_cons, ih]

theorem renderBodyLine_shape (l0 : Str) :
    renderBodyLine l0 = [] ∨
      (∃ b t, renderBodyLine l0 = [ROp.bulletLine b t] ∧
        t.length + 1 ≤ (truncateLine (strip l0)).length) ∨
      (∃ t, renderBodyLine l0 = [ROp.plainLine t] ∧ t = truncateLine (strip l0)) := by
  rw [renderBodyLine]
  by_cases he : (strip l0).isEmpty = true
  · rw [if_pos he]
    exact Or.inl rfl
  · rw [if_neg he]
    dsimp only
    by_cases hb : ((truncateLine (strip l0)).head? = some '-' ||
        (truncateLine (strip l0)).head? = some '•') = true
    · rw [if_pos hb]
      rcases ht : truncateLine (strip l0) with _ | ⟨b, rest⟩
      · exact Or.inl rfl
      · refine Or.inr (Or.inl ⟨b, strip rest, rfl, ?_⟩)
        have hle : (strip rest).length ≤ rest.length := by
          rw [strip]
          have h1 := (List.rdropWhile_prefix isPySpace (rest.dropWhile isPySpace)).sublist
          have h2 := (List.dropWhile_suffix isPySpace (l := rest)).sublist
          exact (h1.trans h2).length_le
        simpa using Nat.add_le_add_right hle 1
    · rw [if_neg hb]
      exact Or.inr (Or.inr ⟨truncateLine (strip l0), rfl, rfl⟩)

theorem notSub_renderBodyLine {l0 : Str} {op : ROp} (h : op ∈ renderBodyLine l0) :
    isSubheading op = false := by
  rcases renderBodyLine_shape l0 with hs | ⟨b, t, hs, _⟩ | ⟨t, hs, _⟩ <;> rw [hs] at h
  · simp at h
  · have : op = ROp.bulletLine b t := by simpa using h
    rw [this]; rfl
  · have : op = ROp.plainLine t := by simpa using h
    rw [this]; rfl

theorem renderBodyLines_eq_bind (ls : List Str) :
    renderBodyLines ls = ls.flatMap renderBodyLine := by
  rw [renderBodyLines, foldr_append_eq_bind]

theorem notSub_renderBodyLines {ls : List Str} {op : ROp} (h : op ∈ renderBodyLines ls) :
    isSubheading op = false := by
  rw [renderBodyLines_eq_bind] at h
  rcases List.mem_flatMap.mp h with ⟨l0, _, hop⟩
  exact notSub_renderBodyLine hop

theorem countP_renderBodyLines (ls : List Str) :
    (renderBodyLines ls).countP isSubheading = 0 := by
  rw [List.countP_eq_zero]
  intro op hop
  rw [notSub_renderBodyLines hop]
  exact Bool.false_ne_true

theorem truncateLine_length (l : Str) : (truncateLine l).length ≤ 123 ∨
    (truncateLine l = l ∧ l.length ≤ 120) := by
  rw [truncateLine]
  by_cases h : 120 < l.length
  · rw [if_pos h]
    left
    rw [List.length_append, List.length_take]
    rw [show (("...".data : Str)).length = 3 from rfl]
    omega
  · rw [if_neg h]
    right
    exact ⟨rfl, Nat.le_of_not_lt h⟩

theorem truncateLine_length_le (l : Str) : (truncateLine l).length ≤ 123 := by
  rcases truncateLine_length l with h | ⟨he, hl⟩
  · exact h
  · rw [he]; omega

/-! ## Lemmas about the canonicalization fold -/

theorem memKey_canonStep_self (s : List (Str × Str)) (v : Str) :
    memKey (canonStep s v) v = true := by
  rcases hf : s.find? (fun p => canonCond v p.1) with _ | p0
  · rw [canonStep, hf]
    dsimp only
    by_cases hm : memKey s v = true
    · rw [if_pos hm]
      exact hm
    · rw [if_neg hm, memKey, List.any_append]
      simp
  · rw [canonStep, hf]
    dsimp only
    by_cases hpv : p0.1 = v
    · rw [if_pos hpv]
      exact List.any_eq_true.mpr ⟨p0, List.mem_of_find?_eq_some hf, decide_eq_true hpv⟩
    · rw [if_neg hpv]
      exact memKey_dictSet_self _ _ _

theorem memKey_canonStep_pres {s : List (Str × Str)} {w : Str}
    (hw : memKey s w = true) {v : Str} (hcross : canonCond v w = false) :
    memKey (canonStep s v) w = true := by
  rcases hf : s.find? (fun p => canonCond v p.1) with _ | p0
  · rw [canonStep, hf]
    dsimp only
    by_cases hm : memKey s v = true
    · rw [if_pos hm]
      exact hw
    · rw [if_neg hm, memKey, List.any_append]
      rw [memKey] at hw
      simp [hw]
  · rw [canonStep, hf]
    dsimp only
    have hne : w ≠ p0.1 := by
      intro he
      have hp := List.find?_some hf
      rw [← he] at hp
      rw [hp] at hcross
      simp at hcross
    by_cases hpv : p0.1 = v
    · rw [if_pos hpv]
      exact hw
    · rw [if_neg hpv]
      apply memKey_dictSet_mono
      rw [memKey_dictRemove_ne hne]
      exact hw

theorem memKey_canonFold_pres {w : Str} : ∀ {l : List Str} {s : List (Str × Str)},
    memKey s w = true → (∀ v ∈ l, canonCond v w = false) →
    memKey (l.foldl canonStep s) w = true := by
  intro l
  induction l with
  | nil => intro s hw _; exact hw
  | cons u rest ih =>
    intro s hw hcross
    rw [List.foldl_cons]
    exact ih (memKey_canonStep_pres hw (hcross u (List.mem_cons_self u rest)))
      (fun v hv => hcross v (List.mem_cons_of_mem u hv))

theorem memKey_canonFold {v : Str} : ∀ {l : List Str}, v ∈ l → l.Nodup →
    (∀ a ∈ l, ∀ b ∈ l, a ≠ b → canonCond a b = false) →
    ∀ s, memKey (l.foldl canonStep s) v = true := by
  intro l
  induction l with
  | nil => intro hv; simp at hv
  | cons u rest ih =>
    intro hv hnd hcross s
    rw [List.foldl_cons]
    rcases List.mem_cons.mp hv with rfl | hv'
    · apply memKey_canonFold_pres (memKey_canonStep_self s v)
      intro w hw
      exact hcross w (List.mem_cons_of_mem v hw) v (List.mem_cons_self v rest)
        (fun he => (List.nodup_cons.mp hnd).1 (he ▸ hw))
    · exact ih hv' (List.nodup_cons.mp hnd).2
        (fun a ha b hb hab => hcross a (List.mem_cons_of_mem u ha) b (List.mem_cons_of_mem u hb) hab) _

theorem vocab_nodup : vocab.Nodup := by decide

theorem vocab_nocross : ∀ a ∈ vocab, ∀ b ∈ vocab, a ≠ b → canonCond a b = false := by decide

theorem vocab_self : ∀ u ∈ vocab, canonCond u u = true := by decide

theorem canonFold_keys : ∀ {l : List Str}, (∀ x ∈ l, x ∈ vocab) → l.Nodup →
    ∀ {secs : List (Str × Str)},
    (∀ p ∈ secs, ∀ v ∈ vocab, canonCond v p.1 = true → p.1 = v) →
    keysOf (l.foldl canonStep secs) =
      keysOf secs ++ l.filter (fun v => !(secs.any (fun p => canonCond v p.1))) := by
  intro l
  induction l with
  | nil =>
    intro _ _ secs _
    simp
  | cons u rest ih =>
    intro hsub hnd secs H
    have hu : u ∈ vocab := hsub u (List.mem_cons_self u rest)
    rw [List.foldl_cons, List.filter_cons]
    by_cases hmatch : (secs.any fun p => canonCond u p.1) = true
    · have hstep : canonStep secs u = secs := by
        rcases hf : secs.find? (fun p => canonCond u p.1) with _ | p0
        · rw [List.find?_eq_none] at hf
          rcases List.any_eq_true.mp hmatch with ⟨p, hp, hpc⟩
          exact absurd hpc (by simpa using hf p hp)
        · have hps := List.find?_some hf
          rw [canonStep, hf]
          dsimp only
          rw [if_pos (H p0 (List.mem_of_find?_eq_some hf) u hu hps)]
      rw [hstep]
      rw [show (!(secs.any fun p => canonCond u p.1)) = false by rw [hmatch]; rfl]
      simp only [Bool.false_eq_true, if_false]
      exact ih (fun x hx => hsub x (List.mem_cons_of_mem u hx)) (List.nodup_cons.mp hnd).2 H
    · have hfnone : secs.find? (fun p => canonCond u p.1) = none :=
        List.find?_eq_none.mpr (fun p hp hc =>
          hmatch (List.any_eq_true.mpr ⟨p, hp, hc⟩))
      have hmem : memKey secs u = false := by
        by_cases hmm : memKey secs u = true
        · exfalso
          rcases List.any_eq_true.mp hmm with ⟨p, hp, hpc⟩
          have hpu : p.1 = u := of_decide_eq_true hpc
          apply hmatch
          exact List.any_eq_true.mpr ⟨p, hp, by rw [hpu]; exact vocab_self u hu⟩
        · exact Bool.not_eq_true _ ▸ (by simpa using hmm)
      have hstep : canonStep secs u = secs ++ [(u, [])] := by
        rw [canonStep, hfnone]
        dsimp only
        rw [if_neg (by rw [hmem]; simp)]
      rw [hstep]
      have hnotin : u ∉ rest := (List.nodup_cons.mp hnd).1
      have H' : ∀ p ∈ secs ++ [(u, [])], ∀ v ∈ vocab, canonCond v p.1 = true → p.1 = v := by
        intro p hp v hv hc
        rcases List.mem_append.mp hp with hp1 | hp1
        · exact H p hp1 v hv hc
        · have hpu : p = (u, []) := by simpa using hp1
          rw [hpu] at hc ⊢
          by_cases hvu : v = u
          · exact hvu.symm
          · exact absurd hc (by rw [vocab_nocross v hv u hu hvu]; simp)
      rw [ih (fun x hx => hsub x (List.mem_cons_of_mem u hx)) (List.nodup_cons.mp hnd).2 H']
      have hfiltereq : rest.filter (fun v => !((secs ++ [(u, [])]).any fun p => canonCond v p.1)) =
          rest.filter (fun v => !(secs.any fun p => canonCond v p.1)) := by
        apply List.filter_congr
        intro v hv
        have hvu : v ≠ u := fun he => hnotin (he ▸ hv)
        rw [List.any_append]
        rw [show ([(u, [])].any fun p => canonCond v p.1) = false by
          simp [vocab_nocross v (hsub v (List.mem_cons_of_mem u hv)) u hu hvu]]
        rw [Bool.or_false]
      rw [hfiltereq]
      rw [show (!(secs.any fun p => canonCond u p.1)) = true by
        rw [show (secs.any fun p => canonCond u p.1) = false by simpa using hmatch]; rfl]
      simp only [if_true]
      rw [show keysOf (secs ++ [(u, [])]) = keysOf secs ++ [u] by
        rw [keysOf, List.map_append]; rfl]
      rw [List.append_assoc]
      rfl

theorem lookupD_eq_of_mem_nodup : ∀ {secs : List (Str × Str)}, (keysOf secs).Nodup →
    ∀ {k v : Str}, (k, v) ∈ secs → lookupD secs k = some v := by
  intro secs
  induction secs with
  | nil =>
    intro _ k v h
    simp at h
  | cons p rest ih =>
    intro hnd k v h
    rw [keysOf, List.map_cons] at hnd
    rcases List.mem_cons.mp h with h1 | h1
    · rw [← h1, lookupD, List.find?_cons_of_pos _ (by simp)]
    · have hk : ¬(p.1 = k) := by
        intro he
        have hkm : k ∈ keysOf rest := List.mem_map.mpr ⟨(k, v), h1, rfl⟩
        exact (List.nodup_cons.mp hnd).1 (he ▸ hkm)
      rw [lookupD, List.find?_cons_of_neg _ (by simp [hk])]
      exact ih (List.nodup_cons.mp hnd).2 h1

/-! ## The claims -/

/-- C1: for every input string, `parse_cv_content` returns a mapping
that contains all six canonical keys (`header`, `profile`, `experience`,
`education`, `skills`, `languages`), each mapped to a (possibly empty)
string, so the renderer never needs an existence check for them. -/
theorem c1_all_canonical_keys_present (content : Str) :
    (vocab.all fun v => memKey (parse_cv_content content) v) = true := by
  rw [List.all_eq_true]
  intro v hv
  rw [parse_cv_content, canonicalize]
  exact memKey_canonFold hv vocab_nodup vocab_nocross _

def c2Input : Str := "John Doe\n**Skills**\n• Python".data

/-- C2 (evidence for the code bug): the bullet character `•` (U+2022)
from the input reaches the emitted text runs of `create_cv_pdf`, and is not
Latin-1 encodable; the repository's final step
`pdf.output(dest="S").encode('latin-1')` (line 328) therefore raises
`UnicodeEncodeError` on this input (the FPDF core fonts likewise reject it
inside `cell`), contradicting the never-fails contract.  `parse_cv_content`
itself is total (it is a Lean function). -/
theorem c2_latin1_failure :
    ROp.bulletLine '•' ("Python".data) ∈ create_cv_pdf c2Input ∧
      ((create_cv_pdf c2Input).all opLatin1) = false := by
  constructor
  · decide
  · decide

def c3Input : Str := "John\n**Work Experience**\nDid things\n**Education**\nSchool".data

/-- C3 counterexample: sections are encountered in the order `header`,
`work experience`, `education`, so the claim predicts the key order
`[header, experience, education]` followed by the back-fill entries.  The
code instead pops the renamed key and re-inserts `experience` at the end of
the mapping, after the back-filled `profile`: canonicalization does move a
renamed section. -/
theorem c3_counterexample :
    keysOf (parse_cv_content c3Input) =
      ["header".data, "education".data, "profile".data, "experience".data,
       "skills".data, "languages".data] ∧
    keysOf (parse_cv_content c3Input) ≠
      ["header".data, "experience".data, "education".data, "profile".data,
       "skills".data, "languages".data] := by
  constructor
  · decide
  · decide

/-- C3 (amended): when no rename is needed — every existing key that
matches a vocabulary key by containment is already spelled canonically —
the final mapping lists the keys in the order the sections were first
encountered, with the empty back-fill entries appended at the end in
vocabulary order.  (When a rename is needed, the counterexample shows the
renamed section instead moves to the end of the mapping.) -/
theorem c3_amended_order (secs : List (Str × Str))
    (H : ∀ p ∈ secs, ∀ v ∈ vocab, canonCond v p.1 = true → p.1 = v) :
    keysOf (canonicalize secs) =
      keysOf secs ++ vocab.filter (fun v => !(secs.any fun p => canonCond v p.1)) :=
  canonFold_keys (fun _ hx => hx) vocab_nodup H

theorem c3_amended_order_witness :
    (∀ p ∈ [(("header".data : Str), ("John Doe".data : Str)),
        (("experience".data : Str), ("X".data : Str))],
      ∀ v ∈ vocab, canonCond v p.1 = true → p.1 = v) ∧
    keysOf (canonicalize [(("header".data : Str), ("John Doe".data : Str)),
        (("experience".data : Str), ("X".data : Str))]) =
      keysOf [(("header".data : Str), ("John Doe".data : Str)),
        (("experience".data : Str), ("X".data : Str))] ++
        vocab.filter (fun v =>
          !([(("header".data : Str), ("John Doe".data : Str)),
             (("experience".data : Str), ("X".data : Str))].any
            fun p => canonCond v p.1)) :=
  ⟨by decide, c3_amended_order _ (by decide)⟩

/-- C4: if, after the scan, the header body is whitespace-only, the
backfill reassigns the first 5 lines (`[:5]`) of the first section with a
non-whitespace body to `header` and removes exactly those lines from that
section, leaving every other section untouched; if the header body is
non-whitespace the backfill changes nothing. -/
theorem c4_header_backfill (content : Str) (secs : List (Str × Str))
    (hs : secs = stage1 content) (hv : Str)
    (hh : lookupD secs headerKey = some hv) :
    ((strip hv).isEmpty = false → backfill secs = secs) ∧
    ((strip hv).isEmpty = true → ∀ k v, firstNonemptySec secs = some (k, v) →
      lookupD (backfill secs) headerKey = some (joinNL ((splitNL v).take 5)) ∧
      lookupD (backfill secs) k = some (joinNL ((splitNL v).drop 5)) ∧
      ∀ k', k' ≠ headerKey → k' ≠ k →
        lookupD (backfill secs) k' = lookupD secs k') := by
  constructor
  · intro hse
    rw [backfill, hh]
    dsimp only
    rw [hse]
    simp
  · intro hse k v hf
    have hback : backfill secs =
        dictSet (dictSet secs headerKey (joinNL ((splitNL v).take 5))) k
          (joinNL ((splitNL v).drop 5)) := by
      rw [backfill, hh]
      dsimp only
      rw [hse]
      rw [if_pos rfl, hf]
    have hnd : (keysOf secs).Nodup := by
      rw [hs, keysOf]
      exact stage1_keys_nodup content
    have hkv : (k, v) ∈ secs := List.mem_of_find?_eq_some hf
    have hvstrip := List.find?_some hf
    have hkh : k ≠ headerKey := by
      intro he
      have hlk := lookupD_eq_of_mem_nodup hnd (he ▸ hkv)
      rw [hh] at hlk
      have hveq : hv = v := by injection hlk
      rw [← hveq] at hvstrip
      rw [hse] at hvstrip
      simp at hvstrip
    refine ⟨?_, ?_, ?_⟩
    · rw [hback, lookupD_dictSet_other (Ne.symm hkh), lookupD_dictSet_self]
    · rw [hback, lookupD_dictSet_self]
    · intro k' hk'h hk'k
      rw [hback, lookupD_dictSet_other hk'k, lookupD_dictSet_other hk'h]

def c4Content : Str := "**Experience**\na\nb\nc\nd\ne\nf\ng".data

theorem c4_header_backfill_witness :
    lookupD (stage1 c4Content) headerKey = some [] ∧
    (strip ([] : Str)).isEmpty = true ∧
    firstNonemptySec (stage1 c4Content) =
      some ("experience".data, "a\nb\nc\nd\ne\nf\ng".data) ∧
    lookupD (backfill (stage1 c4Content)) headerKey = some ("a\nb\nc\nd\ne".data) ∧
    lookupD (backfill (stage1 c4Content)) ("experience".data) = some ("f\ng".data) := by
  have h := (c4_header_backfill c4Content (stage1 c4Content) rfl [] (by decide)).2
    (by decide) ("experience".data) ("a\nb\nc\nd\ne\nf\ng".data) (by decide)
  exact ⟨by decide, by decide, by decide, h.1, h.2.1⟩

def c5Long : Str := List.replicate 200 'a'

def c5Input : Str := "John Doe\ncontact\n**Experience**\n".data ++ c5Long

/-- C5 counterexample: a 200-character section body line that is the
first line of its paragraph block is rendered as a sub-heading (line 284)
*without* truncation — the 120-character hard truncation (lines 296–299)
applies only to the body-line loop, after sub-heading extraction.  So the
claimed bound "no rendered line's text exceeds 120 characters plus the
marker" is false. -/
theorem c5_counterexample :
    create_cv_pdf c5Input =
      [ROp.nameLine ("John Doe".data), ROp.contactLine ("contact".data),
       ROp.banner (" EXPERIENCE".data), ROp.subheading c5Long] ∧
    123 < c5Long.length := by
  constructor
  · decide
  · decide

def truncBoundB : ROp → Bool
  | ROp.plainLine t => decide (t.length ≤ 123)
  | ROp.bulletLine _ t => decide (t.length ≤ 122)
  | _ => true

theorem truncBound_renderBodyLine {l0 : Str} {op : ROp} (h : op ∈ renderBodyLine l0) :
    truncBoundB op = true := by
  rcases renderBodyLine_shape l0 with hs | ⟨b, t, hs, hlen⟩ | ⟨t, hs, ht⟩ <;> rw [hs] at h
  · simp at h
  · have hop : op = ROp.bulletLine b t := by simpa using h
    rw [hop, truncBoundB]
    have := truncateLine_length_le (strip l0)
    exact decide_eq_true (by omega)
  · have hop : op = ROp.plainLine t := by simpa using h
    rw [hop, truncBoundB]
    rw [ht]
    exact decide_eq_true (truncateLine_length_le _)

theorem truncBound_renderItem {item : Str} {op : ROp} (h : op ∈ renderItem item) :
    truncBoundB op = true := by
  rw [renderItem] at h
  by_cases hcond : (!((strip ((splitNL item).headD [])).head? = some '-') &&
      !((strip ((splitNL item).headD [])).head? = some '•')) = true
  · rw [if_pos hcond] at h
    rcases List.mem_cons.mp h with hop | hop
    · rw [hop]; rfl
    · rw [renderBodyLines_eq_bind] at hop
      rcases List.mem_flatMap.mp hop with ⟨l0, _, hop'⟩
      exact truncBound_renderBodyLine hop'
  · rw [if_neg hcond] at h
    rw [renderBodyLines_eq_bind] at h
    rcases List.mem_flatMap.mp h with ⟨l0, _, hop'⟩
    exact truncBound_renderBodyLine hop'

theorem truncBound_renderSection {k v : Str} {op : ROp} (h : op ∈ renderSection k v) :
    truncBoundB op = true := by
  rw [renderSection] at h
  rcases List.mem_cons.mp h with hop | hop
  · rw [hop]; rfl
  · rw [foldr_append_eq_bind] at hop
    rcases List.mem_flatMap.mp hop with ⟨item, _, hop'⟩
    by_cases he : (strip item).isEmpty = true
    · rw [if_pos he] at hop'
      simp at hop'
    · rw [if_neg he] at hop'
      exact truncBound_renderItem hop'

/-- C5 (amended): every line emitted by the body-line loop — bullet or
plain, i.e. everything except sub-headings, the name line, the contact line
and the banners — is truncated to at most 120 characters plus the `"..."`
marker: plain lines never exceed 123 characters and bullet texts never
exceed 122 (the bullet glyph is split off after truncation). -/
theorem c5_amended_body_line_bound (content : Str) :
    ((create_cv_pdf content).all truncBoundB) = true := by
  rw [List.all_eq_true]
  intro op hop
  rw [create_cv_pdf] at hop
  rcases List.mem_cons.mp hop with hop1 | hop1
  · rw [hop1]; rfl
  · rcases List.mem_cons.mp hop1 with hop2 | hop2
    · rw [hop2]; rfl
    · rw [foldr_append_eq_bind] at hop2
      rcases List.mem_flatMap.mp hop2 with ⟨p, _, hop'⟩
      by_cases hc : (p.1 = headerKey || (strip p.2).isEmpty) = true
      · rw [if_pos hc] at hop'
        simp at hop'
      · rw [if_neg hc] at hop'
        exact truncBound_renderSection hop'

def c6Input : Str := "Name\n**Experience**\nstuff\n**".data

/-- C6 counterexample: the line `"**"` both starts and ends with `**`
(Python's overlapping `startswith`/`endswith`), but stripping all asterisks
leaves the empty string, which is falsy, so the line is *not* treated as a
heading — it is appended to the active section's body instead. -/
theorem c6_counterexample :
    strPrefixOf ['*', '*'] ("**".data) = true ∧
    strSuffixOf ['*', '*'] ("**".data) = true ∧
    classifyLine ("**".data) = none ∧
    lookupD (parse_cv_content c6Input) ("experience".data) = some ("stuff\n**".data) :=
  ⟨by decide, by decide, by decide, by decide⟩

/-- C6 (amended): a line whose trimmed form starts and ends with `**`
is treated as a heading with text the line stripped of leading/trailing
asterisks, whitespace-trimmed and case-folded, *provided* that text is
nonempty; when it is empty (a line of only asterisks, such as `"**"`) the
line is a body line.  The check runs after the three pattern detectors and
overrides their derived heading text. -/
theorem c6_amended_override (s : Str)
    (h1 : strPrefixOf ['*', '*'] s = true) (h2 : strSuffixOf ['*', '*'] s = true) :
    classifyLine s =
      (if (toLowerS (strip (stripChars ['*'] s))).isEmpty then none
       else some (toLowerS (strip (stripChars ['*'] s)))) := by
  unfold classifyLine
  rw [h1, h2]
  rfl

theorem c6_amended_override_witness :
    strPrefixOf ['*', '*'] ("**Skills**".data) = true ∧
    strSuffixOf ['*', '*'] ("**Skills**".data) = true ∧
    classifyLine ("**Skills**".data) =
      (if (toLowerS (strip (stripChars ['*'] ("**Skills**".data)))).isEmpty then none
       else some (toLowerS (strip (stripChars ['*'] ("**Skills**".data))))) :=
  ⟨by decide, by decide, c6_amended_override _ (by decide) (by decide)⟩

theorem ne_of_pred_mismatch {P : Char → Bool} {c d : Char}
    (hc : P c = true) (hd : P d = false) : d ≠ c := by
  intro he
  rw [he, hc] at hd
  exact absurd hd (by simp)

theorem pyStrip_getLast?_false {p : Char → Bool} {s : Str} (h : pyStrip p s = s) :
    ∀ c ∈ s.getLast?, p c = false := by
  intro c hc
  have hc' : c ∈ (pyStrip p s).getLast? := by rw [h]; exact hc
  have hne : pyStrip p s ≠ [] := by
    intro he
    rw [he] at hc'
    simp at hc'
  have h1 := pyStrip_last_false (p := p) (s := s) hne
  have h2 : (pyStrip p s).getLast? = some ((pyStrip p s).getLast hne) :=
    List.getLast?_eq_getLast _ hne
  rw [h2] at hc'
  have hceq : (pyStrip p s).getLast hne = c := by simpa using hc'
  rw [← hceq]
  exact h1

theorem mem_of_getLast? {s : Str} {c : Char} (h : c ∈ s.getLast?) : c ∈ s := by
  rcases s with _ | ⟨d, t⟩
  · simp at h
  · have hg := List.getLast?_eq_getLast (d :: t) (by simp)
    rw [hg] at h
    have hc : (d :: t).getLast (by simp) = c := by simpa using h
    rw [← hc]
    exact List.getLast_mem _

/-- C7: the shout-case detector classifies a stripped line as a heading
exactly on lines of five or more characters that are all uppercase letters
or whitespace, with heading text the line itself case-folded; `"SKILLS"` is
such a heading while the mixed-case `"Skills"` is not a heading at all and
stays in the active section's body. -/
theorem c7_shout_case :
    (∀ s : Str, strip s = s → 5 ≤ s.length →
      (s.all fun c => isUpperAZ c || isPySpace c) = true →
      classifyLine s = some (toLowerS s)) ∧
    classifyLine ("Skills".data) = none ∧
    lookupD (parse_cv_content ("John Doe\nSKILLS\nSkills".data)) ("skills".data) =
      some ("Skills".data) := by
  refine ⟨?_, by decide, by decide⟩
  intro s hstrip hlen hall
  obtain ⟨c, t, hs⟩ : ∃ c t, s = c :: t := by
    rcases hsc : s with _ | ⟨c, t⟩
    · rw [hsc] at hlen; simp at hlen
    · exact ⟨c, t, rfl⟩
  have hcs : isPySpace c = false := pyStrip_head_false (hstrip.trans hs)
  have hcup : isUpperAZ c = true := by
    have hmem := List.all_eq_true.mp hall c (by rw [hs]; exact List.mem_cons_self c t)
    rw [hcs, Bool.or_false] at hmem
    exact hmem
  have hpre : strPrefixOf ['*', '*'] s = false := by
    rw [hs]
    have hne : ('*' : Char) ≠ c := ne_of_pred_mismatch hcup (by decide)
    simp [strPrefixOf, hne]
  have hp1 : matchP1 s = none := by
    rw [matchP1, if_neg (by rw [hpre]; simp)]
  have hp2 : matchesP2 s = true := by
    rw [matchesP2, hall, Bool.and_true]
    exact decide_eq_true hlen
  have hlastNotSet : ∀ d ∈ s.getLast?, ((['*', ' ', '-'] : Str).contains d) = false := by
    intro d hd
    have hds : isPySpace d = false := pyStrip_getLast?_false hstrip d hd
    have hdu : isUpperAZ d = true := by
      have hmem := List.all_eq_true.mp hall d (mem_of_getLast? hd)
      rw [hds, Bool.or_false] at hmem
      exact hmem
    have h1 : d ≠ '*' := Ne.symm (ne_of_pred_mismatch hdu (by decide))
    have h2 : d ≠ ' ' := Ne.symm (ne_of_pred_mismatch hdu (by decide))
    have h3 : d ≠ '-' := Ne.symm (ne_of_pred_mismatch hdu (by decide))
    simp [List.contains, h1, h2, h3]
  have hchars : stripChars ['*', ' ', '-'] s = s := by
    rw [stripChars]
    apply pyStrip_eq_self
    · intro d hd
      rw [hs] at hd
      have hdc : c = d := by simpa using hd
      rw [← hdc]
      have h1 : c ≠ '*' := Ne.symm (ne_of_pred_mismatch hcup (by decide))
      have h2 : c ≠ ' ' := Ne.symm (ne_of_pred_mismatch hcup (by decide))
      have h3 : c ≠ '-' := Ne.symm (ne_of_pred_mismatch hcup (by decide))
      simp [List.contains, h1, h2, h3]
    · exact hlastNotSet
  have hnonempty : (toLowerS s).isEmpty = false := by
    rw [hs]
    rfl
  have hne2 : ¬(toLowerS s = []) := by
    intro he
    rw [he] at hnonempty
    simp at hnonempty
  unfold classifyLine
  simp only [hp1, hp2, hpre, hchars, hstrip, Bool.false_and, hnonempty]
  simp [hne2]

theorem c7_shout_case_witness :
    strip ("SKILLS".data) = "SKILLS".data ∧
    5 ≤ ("SKILLS".data).length ∧
    (("SKILLS".data).all fun c => isUpperAZ c || isPySpace c) = true ∧
    classifyLine ("SKILLS".data) = some (toLowerS ("SKILLS".data)) :=
  ⟨by decide, by decide, by decide,
    c7_shout_case.1 ("SKILLS".data) (by decide) (by decide) (by decide)⟩

/-- C8: for a paragraph block whose stripped first line starts with a
bullet marker (`-` or `•`) no sub-heading is extracted and every emitted op
is a bullet or plain line; otherwise the first line is emitted as a bold
sub-heading and only the remaining lines of the block go through the
body-line loop (which emits only bullet and plain lines). -/
theorem c8_block_subheading (item : Str) :
    (((strip ((splitNL item).headD [])).head? = some '-' ∨
      (strip ((splitNL item).headD [])).head? = some '•') →
      renderItem item = renderBodyLines (splitNL item) ∧
      ∀ op ∈ renderItem item, isSubheading op = false) ∧
    (¬((strip ((splitNL item).headD [])).head? = some '-' ∨
       (strip ((splitNL item).headD [])).head? = some '•') →
      renderItem item =
        ROp.subheading (strip ((splitNL item).headD [])) ::
          renderBodyLines (splitNL item).tail ∧
      ∀ op ∈ renderBodyLines (splitNL item).tail, isSubheading op = false) := by
  constructor
  · intro hcond
    have hc : (!((strip ((splitNL item).headD [])).head? = some '-') &&
        !((strip ((splitNL item).headD [])).head? = some '•')) = false := by
      rcases hcond with h | h <;> rw [h] <;> simp
    have heq : renderItem item = renderBodyLines (splitNL item) := by
      rw [renderItem, if_neg (by rw [hc]; simp)]
    refine ⟨heq, ?_⟩
    intro op hop
    rw [heq] at hop
    exact notSub_renderBodyLines hop
  · intro hcond
    rw [not_or] at hcond
    have h1 : (decide ((strip ((splitNL item).headD [])).head? = some '-')) = false :=
      decide_eq_false hcond.1
    have h2 : (decide ((strip ((splitNL item).headD [])).head? = some '•')) = false :=
      decide_eq_false hcond.2
    have hc : (!((strip ((splitNL item).headD [])).head? = some '-') &&
        !((strip ((splitNL item).headD [])).head? = some '•')) = true := by
      rw [h1, h2]
      rfl
    refine ⟨by rw [renderItem, if_pos hc], ?_⟩
    intro op hop
    exact notSub_renderBodyLines hop

theorem c8_block_subheading_witness :
    ((strip ((splitNL ("- a\n- b".data)).headD [])).head? = some '-' ∨
      (strip ((splitNL ("- a\n- b".data)).headD [])).head? = some '•') ∧
    renderItem ("- a\n- b".data) = renderBodyLines (splitNL ("- a\n- b".data)) ∧
    ¬((strip ((splitNL ("Software Engineer, Acme Corp\n- built".data)).headD [])).head? =
        some '-' ∨
      (strip ((splitNL ("Software Engineer, Acme Corp\n- built".data)).headD [])).head? =
        some '•') ∧
    renderItem ("Software Engineer, Acme Corp\n- built".data) =
      ROp.subheading (strip ((splitNL ("Software Engineer, Acme Corp\n- built".data)).headD [])) ::
        renderBodyLines (splitNL ("Software Engineer, Acme Corp\n- built".data)).tail :=
  ⟨by decide,
   ((c8_block_subheading ("- a\n- b".data)).1 (by decide)).1,
   by decide,
   ((c8_block_subheading ("Software Engineer, Acme Corp\n- built".data)).2 (by decide)).1⟩

def c9Input : Str := "John Doe\njohn@x.com\n**Experience**\nDid stuff".data

/-- C9 counterexample: the original parse has non-empty canonical keys
`[header, experience]`; re-parsing the body of `experience` (`"Did stuff"`)
yields only `[header]` as non-empty keys — not the same set. -/
theorem c9_counterexample :
    nonEmptyKeysOf (parse_cv_content c9Input) = ["header".data, "experience".data] ∧
    lookupD (parse_cv_content c9Input) ("experience".data) = some ("Did stuff".data) ∧
    nonEmptyKeysOf (parse_cv_content ("Did stuff".data)) = ["header".data] ∧
    nonEmptyKeysOf (parse_cv_content ("Did stuff".data)) ≠
      nonEmptyKeysOf (parse_cv_content c9Input) :=
  ⟨by decide, by decide, by decide, by decide⟩

/-- C9 (amended): re-running `parse_cv_content` on the body text of any
non-empty section of a previous parse yields a mapping whose only non-empty
key is `header` — every stored body line was classified as a non-heading,
so on a re-parse all of it accumulates under `header`.  The re-parse
therefore agrees with the original's non-empty keys exactly when `header`
was the original's only non-empty key. -/
theorem c9_amended_reparse (content k body : Str)
    (h : lookupD (parse_cv_content content) k = some body) (hne : body ≠ []) :
    nonEmptyKeysOf (parse_cv_content body) = [headerKey] := by
  rcases parse_BodyOk h with hb | ⟨ls, hlne, hlg, hveq⟩
  · exact absurd hb hne
  · rw [parse_of_good_body hlne hlg hveq]
    have hstr : strip body ≠ [] := strip_ne_nil_of_good hlne hlg hveq
    have hstr' : (strip body).isEmpty = false := by
      rcases hsx : strip body with _ | ⟨c, t⟩
      · exact absurd hsx hstr
      · rfl
    rw [nonEmptyKeysOf, List.filter_cons]
    rw [show (!(strip ((headerKey, body) : Str × Str).2).isEmpty) = true by
      rw [show ((headerKey, body) : Str × Str).2 = body from rfl, hstr']; rfl]
    rw [if_pos rfl]
    rfl

theorem c9_amended_reparse_witness :
    lookupD (parse_cv_content c9Input) ("experience".data) = some ("Did stuff".data) ∧
    ("Did stuff".data ≠ ([] : Str)) ∧
    nonEmptyKeysOf (parse_cv_content ("Did stuff".data)) = [headerKey] :=
  ⟨by decide, by decide,
    c9_amended_reparse c9Input ("experience".data) ("Did stuff".data) (by decide) (by decide)⟩

/-- C10: every non-empty section body returned by `parse_cv_content`
consists of nonempty, already-stripped lines (no blank lines), so the
renderer's blank-line split `re.split(r'\n\s*\n', body)` returns the body
as a single paragraph block and at most one sub-heading op is emitted for
the section. -/
theorem c10_single_block (content k v : Str)
    (h : lookupD (parse_cv_content content) k = some v) (hne : v ≠ []) :
    (∀ l ∈ splitNL v, l ≠ [] ∧ strip l = l) ∧
    pySplitBlank v = [v] ∧
    (renderSection k v).countP isSubheading ≤ 1 := by
  rcases parse_BodyOk h with hb | ⟨ls, hlne, hlg, hveq⟩
  · exact absurd hb hne
  · have hsplit : splitNL v = ls := by
      rw [hveq]
      exact splitNL_joinNL hlne (fun l hl => (hlg l hl).2.2.2)
    have hps : pySplitBlank v = [v] := pySplitBlank_good hlne hlg hveq
    have hstr : strip v ≠ [] := strip_ne_nil_of_good hlne hlg hveq
    have hstr' : (strip v).isEmpty = false := by
      rcases hsx : strip v with _ | ⟨c, t⟩
      · exact absurd hsx hstr
      · rfl
    refine ⟨?_, hps, ?_⟩
    · intro l hl
      rw [hsplit] at hl
      exact ⟨(hlg l hl).1, (hlg l hl).2.1⟩
    · rw [renderSection, hps]
      simp only [List.foldr_cons, List.foldr_nil]
      rw [if_neg (by rw [hstr']; simp), List.append_nil, List.countP_cons]
      rw [show (isSubheading (ROp.banner (' ' :: toUpperS k))) = false from rfl]
      simp only [Bool.false_eq_true, if_false, Nat.add_zero]
      rw [renderItem]
      by_cases hcond : (!((strip ((splitNL v).headD [])).head? = some '-') &&
          !((strip ((splitNL v).headD [])).head? = some '•')) = true
      · rw [if_pos hcond, List.countP_cons]
        rw [countP_renderBodyLines]
        simp [isSubheading]
      · rw [if_neg hcond, countP_renderBodyLines]
        omega

theorem c10_single_block_witness :
    lookupD (parse_cv_content ("A\n**Skills**\n- x\n- y".data)) ("skills".data) =
      some ("- x\n- y".data) ∧
    ("- x\n- y".data ≠ ([] : Str)) ∧
    pySplitBlank ("- x\n- y".data) = ["- x\n- y".data] ∧
    (renderSection ("skills".data) ("- x\n- y".data)).countP isSubheading ≤ 1 := by
  have h := c10_single_block ("A\n**Skills**\n- x\n- y".data) ("skills".data)
    ("- x\n- y".data) (by decide) (by decide)
  exact ⟨by decide, by decide, h.2.1, h.2.2⟩
